import Mathlib

/-!
Verification of the stacked-subarray iterator (stdlib-js/ndarray-iter-stacks).

The definitions below are a shallow embedding of src/lib/main.js.  The
external stdlib collaborators the file calls (index normalization, element
count, take/put, the Cartesian index step, and slicing) are modelled by small
Lean functions that follow the behaviour of the corresponding stdlib
packages; each carries a doc comment naming the package it models.  The
ndarray itself is represented by the only features the iterator reads: its
shape and its read-only flag.
-/

set_option maxRecDepth 8000

namespace NdIterStacks

/-- Model of the external ndarray collaborator: only the features the
iterator reads are represented, namely the shape and the read-only flag. -/
structure Ndarray where
  shape : List Nat
  readOnlyFlag : Bool
  deriving DecidableEq, Repr

/-- Model of an ndarray view produced by the external slice collaborator:
the base array, the per-dimension slice arguments (none is a full range,
some i selects the fixed index i), and the writable flag passed through. -/
structure NdView where
  base : Ndarray
  spec : List (Option Nat)
  writable : Bool
  deriving DecidableEq, Repr

/-- The readonly entry of an options object: absent, a boolean primitive, or
a value of some other type. -/
inductive ReadonlyOpt where
  | absent
  | boolVal (b : Bool)
  | nonBool
  deriving DecidableEq, Repr

/-- The optional third argument of nditerStacks.  A plain object records its
readonly entry and a possible writable entry; the constructor never reads
the latter (unknown keys are ignored), but the internal factory closure
passes an object carrying only a writable key, so the model keeps that key
visible. -/
inductive OptionsArg where
  | absent
  | notPlainObject
  | plainObj (ro : ReadonlyOpt) (wr : Option Bool)
  deriving DecidableEq, Repr

/-- The throw sites of the constructor in src/lib/main.js, in source order. -/
inductive ErrKind where
  | secondArgNotIntegerArray
  | optionsNotObject
  | invalidReadonlyOption
  | cannotWriteReadOnly
  | insufficientDimensions
  | indexOutOfRange
  | notSortedAscending
  | notUnique
  | internalTakeError
  deriving DecidableEq, Repr

/-- External stdlib assert-is-integer-array (primitives variant): built from
the stdlib array-function assertion tool, which tests every element of an
array-like value and, by a documented convention of that tool, returns false
for an empty collection.  On a typed list of integers the per-element test
always passes, so only emptiness remains observable. -/
def isIntegerArray (dims : List Int) : Bool :=
  !dims.isEmpty

/-- External stdlib ndarray-base-normalize-index: resolves a possibly
negative index against the maximum allowed index mx, returning -1 when the
index is out of bounds. -/
def normalizeIndex (idx mx : Int) : Int :=
  if idx < -mx - 1 ∨ idx > mx then -1
  else if idx < 0 then idx + mx + 1
  else idx

/-- External stdlib ndarray-base-numel: the product of the dimensions, with
zero returned for a zero-dimensional shape. -/
def numel (shape : List Nat) : Nat :=
  if shape.isEmpty then 0 else shape.prod

/-- External stdlib array-base-zeros. -/
def zerosArr (n : Nat) : List Nat := List.replicate n 0

/-- External stdlib array-base-take in throw mode: selects the entries of x
at the listed positions, with none modelling the thrown index error. -/
def takeArr {α : Type} (x : List α) : List Nat → Option (List α)
  | [] => some []
  | j :: js =>
    match x[j]?, takeArr x js with
    | some v, some r => some (v :: r)
    | _, _ => none

/-- External stdlib array-base-put in throw mode: writes the k-th value at
the k-th listed position; none models the thrown index error or a malformed
values argument (the source always supplies value lists of matching
length). -/
def putArr {α : Type} (x : List α) : List Nat → List α → Option (List α)
  | [], [] => some x
  | j :: js, v :: vs => if j < x.length then putArr (x.set j v) js vs else none
  | _, _ => none

/-- Carry loop of the external stdlib ndarray-base-next-cartesian-index in
row-major order, acting on the reversed shape and index lists: the last
dimension is incremented first, overflow resets the entry to zero and
carries toward the more significant dimensions, cycling to all zeros past
the most significant one. -/
def incCarry : List Nat → List Nat → List Nat
  | s :: sh, v :: idx => if v + 1 < s then (v + 1) :: idx else 0 :: incCarry sh idx
  | _, idx => idx

/-- External stdlib ndarray-base-next-cartesian-index (assign form) for
row-major order and dimension argument -1, as called by next: none models
the null returned for a zero-dimensional shape. -/
def nextCartesianIndexRM (sh idx : List Nat) : Option (List Nat) :=
  if sh.isEmpty then none
  else some ((incCarry sh.reverse idx.reverse).reverse)

/-- The loop in the source that stores null in the slice-argument array at
every stacked dimension. -/
def setNulls (idx : List (Option Nat)) : List Nat → List (Option Nat)
  | [] => idx
  | d :: ds => setNulls (idx.set d none) ds

/-- The loop in the source that collects the dimensions to iterate over: the
dimension range is walked in order, and a position matching the next
unconsumed entry of the stacked-dimension list is skipped while consuming
that entry. -/
def complementLoop : List Nat → List Nat → List Nat
  | [], _ => []
  | i :: is, [] => i :: complementLoop is []
  | i :: is, d :: ds =>
    if i = d then complementLoop is ds
    else i :: complementLoop is (d :: ds)

/-- The iterated (free) dimensions computed by the source. -/
def freeIndices (ndims : Nat) (dims : List Nat) : List Nat :=
  complementLoop (List.range ndims) dims

/-- The take call of the source that builds the Cartesian index buffer from
the slice-argument array: at the iterated positions that array always holds
integers; none models the otherwise thrown error (or a null having leaked
into the buffer, which the source never lets happen). -/
def takeVals (idx : List (Option Nat)) : List Nat → Option (List Nat)
  | [] => some []
  | j :: js =>
    match idx[j]?, takeVals idx js with
    | some (some v), some r => some (v :: r)
    | _, _ => none

/-- Options handling of the constructor, in source order: an options
argument must be a plain object; a readonly entry must be a boolean; the
internal writable flag is the negation of readonly; and a writable request
against a read-only array fails.  Nothing else is read from the object. -/
def processOptions (x : Ndarray) : OptionsArg → Except ErrKind Bool
  | .absent => .ok false
  | .notPlainObject => .error .optionsNotObject
  | .plainObj ro _wr =>
    match ro with
    | .absent => .ok false
    | .nonBool => .error .invalidReadonlyOption
    | .boolVal b =>
      if !b && x.readOnlyFlag then .error .cannotWriteReadOnly
      else .ok (!b)

/-- The normalization loop of the constructor: each requested dimension
index is resolved against ndims - 1 and the first out-of-range entry aborts
with a range error. -/
def normalizeDims (ndims : Nat) : List Int → Except ErrKind (List Nat)
  | [] => .ok []
  | d :: ds =>
    let v := normalizeIndex d ((ndims : Int) - 1)
    if v = -1 then .error .indexOutOfRange
    else
      match normalizeDims ndims ds with
      | .error e => .error e
      | .ok nd => .ok (v.toNat :: nd)

/-- The ordering loop of the constructor: a strictly decreasing adjacent
pair aborts with the ordering error; equal adjacent entries pass. -/
def checkSorted : List Nat → Except ErrKind Unit
  | a :: b :: t => if a > b then .error .notSortedAscending else checkSorted (b :: t)
  | _ => .ok ()

/-- The uniqueness loop of the constructor: an equal adjacent pair aborts
with the uniqueness error.  (The compaction writes the loop performs are the
identity whenever it completes, so they are not modelled.) -/
def checkUnique : List Nat → Except ErrKind Unit
  | a :: b :: t => if a = b then .error .notUnique else checkUnique (b :: t)
  | _ => .ok ()

/-- External stdlib slice-base-args2multislice, restricted to the arguments
the source produces: null entries denote full ranges and integer entries
fixed indices, which is exactly what the argument array already records. -/
def args2multislice (a : List (Option Nat)) : List (Option Nat) := a

/-- In-bounds test for the integer entries of a multislice against a shape. -/
def specInBounds (shape : List Nat) (s : List (Option Nat)) : Bool :=
  (shape.zip s).all fun p =>
    match p.2 with
    | none => true
    | some v => decide (v < p.1)

/-- External stdlib ndarray-base-slice in strict mode, restricted to
multislices whose entries are full ranges or nonnegative integers: the
produced view records the base array, the slice arguments and the writable
flag; none models the strict-mode error for a dimensionality mismatch or an
out-of-bounds index. -/
def sliceView (x : Ndarray) (s : List (Option Nat)) (w : Bool) : Option NdView :=
  if s.length = x.shape.length ∧ specInBounds x.shape s = true then some ⟨x, s, w⟩
  else none

/-- The immutable data the closures of the constructor capture: the input
array, the normalized stacked dimensions, the writable flag, the subarray
count N, the iterated dimensions, and their extents. -/
structure IterConfig where
  x : Ndarray
  dims : List Nat
  writable : Bool
  N : Nat
  indices : List Nat
  sh : List Nat
  deriving DecidableEq, Repr

/-- The mutable cursor of the iterator: the finished flag, the counter i
(initialized to -1 and incremented on every next call), the slice-argument
array, and the Cartesian index buffer. -/
structure CursorState where
  FLG : Bool
  i : Int
  idx : List (Option Nat)
  ibuf : List Nat
  deriving DecidableEq, Repr

/-- Shallow embedding of nditerStacks from src/lib/main.js: validation in
source order, then the derived configuration and the initial cursor.  The
ndarray-likeness of the first argument and the integerness of the entries of
the second are carried by the types.  The subarray count is produced by the
source division loop; it is modelled with natural division, which agrees
with the source in every reachable observation: when the array has no
elements the source computation can pass through NaN, but the finished flag
is consulted before the count on every call to next, in the model as in the
source. -/
def nditerStacks (x : Ndarray) (dims : List Int) (o : OptionsArg) :
    Except ErrKind (IterConfig × CursorState) :=
  if !(isIntegerArray dims) then .error .secondArgNotIntegerArray
  else
    match processOptions x o with
    | .error e => .error e
    | .ok writable =>
      if x.shape.length ≤ dims.length then .error .insufficientDimensions
      else
        match normalizeDims x.shape.length dims with
        | .error e => .error e
        | .ok nd =>
          match checkSorted nd with
          | .error e => .error e
          | .ok _ =>
            match checkUnique nd with
            | .error e => .error e
            | .ok _ =>
              match takeArr x.shape (freeIndices x.shape.length nd),
                    takeVals (setNulls ((zerosArr x.shape.length).map some) nd)
                      (freeIndices x.shape.length nd) with
              | some sh, some ibuf =>
                .ok (⟨x, nd, writable,
                      nd.foldl (fun n d => n / x.shape.getD d 0) (numel x.shape),
                      freeIndices x.shape.length nd, sh⟩,
                     ⟨decide (numel x.shape = 0), -1,
                      setNulls ((zerosArr x.shape.length).map some) nd, ibuf⟩)
              | _, _ => .error .internalTakeError

/-- One result of driving the iterator: a produced view, a done object, or a
thrown collaborator error (never reached from a constructed iterator). -/
inductive CallRes where
  | value (v : NdView)
  | doneRes
  | err (msg : String)
  deriving DecidableEq, Repr

/-- Shallow embedding of the next closure: the counter always advances; when
the finished flag is set or the counter has reached the subarray count the
done object is returned; otherwise the multislice is built from the current
slice-argument array, the Cartesian index buffer is advanced with
wraparound, the slice-argument array is updated at the iterated positions,
and a view over the original array is produced.  Collaborator failures are
surfaced as err results with the mutations already applied, matching the
mutation order of the source. -/
def next (cfg : IterConfig) (st : CursorState) : CallRes × CursorState :=
  if st.FLG = true ∨ st.i + 1 ≥ (cfg.N : Int) then
    (.doneRes, { st with i := st.i + 1 })
  else
    match nextCartesianIndexRM cfg.sh st.ibuf with
    | none => (.err "nextCartesianIndex", { st with i := st.i + 1 })
    | some ibuf2 =>
      match putArr st.idx cfg.indices (ibuf2.map some) with
      | none => (.err "put", { st with i := st.i + 1, ibuf := ibuf2 })
      | some idx2 =>
        match sliceView cfg.x (args2multislice st.idx) cfg.writable with
        | none => (.err "slice", ⟨st.FLG, st.i + 1, idx2, ibuf2⟩)
        | some v => (.value v, ⟨st.FLG, st.i + 1, idx2, ibuf2⟩)

/-- Shallow embedding of the return closure (end in the source): the
finished flag is set unconditionally and a done object is returned; an
optional passthrough value does not affect the cursor. -/
def endIter (st : CursorState) : CallRes × CursorState :=
  (.doneRes, { st with FLG := true })

/-- A consumer action on the iterator. -/
inductive Call where
  | next
  | ret
  deriving DecidableEq, Repr

/-- One consumer action applied to the cursor. -/
def stepCall (cfg : IterConfig) (st : CursorState) : Call → CallRes × CursorState
  | .next => next cfg st
  | .ret => endIter st

/-- Driving the cursor through a sequence of next and return calls,
collecting the results. -/
def run (cfg : IterConfig) (st : CursorState) : List Call → List CallRes × CursorState
  | [] => ([], st)
  | c :: cs =>
    let p := stepCall cfg st c
    let q := run cfg p.2 cs
    (p.1 :: q.1, q.2)

/-- The cursor after k next calls. -/
def stateAfterNexts (cfg : IterConfig) (st : CursorState) : Nat → CursorState
  | 0 => st
  | k + 1 => (next cfg (stateAfterNexts cfg st k)).2

/-- The result of the next call made after k earlier next calls. -/
def nthNextRes (cfg : IterConfig) (st : CursorState) (k : Nat) : CallRes :=
  (next cfg (stateAfterNexts cfg st k)).1

/-- The number of views among a list of results. -/
def countViews (rs : List CallRes) : Nat :=
  rs.countP fun r => match r with | .value _ => true | _ => false

/-- Shallow embedding of the factory closure the source attaches at
Symbol.iterator: the source calls nditerStacks with the original array, the
normalized dimension list, and the internal opts object; that object is a
plain object whose only key is writable, so it carries no readonly key. -/
def factory (cfg : IterConfig) : Except ErrKind (IterConfig × CursorState) :=
  nditerStacks cfg.x (cfg.dims.map Int.ofNat) (.plainObj .absent (some cfg.writable))

/-- Little-endian mixed-radix digits of k for the given radices. -/
def mixedDigits : List Nat → Nat → List Nat
  | [], _ => []
  | s :: sh, k => k % s :: mixedDigits sh (k / s)

/-- Row-major coordinate of rank k in an index space of the given shape: the
entry for a dimension is the rank divided by the number of points of the
later dimensions, reduced modulo the extent, so the last dimension varies
fastest and rank 0 is the all-zeros coordinate. -/
def rowMajorCoord : List Nat → Nat → List Nat
  | [], _ => []
  | s :: sh, k => (k / sh.prod) % s :: rowMajorCoord sh k

/-- The extents of the dimensions of the shape that are not contained in the
stacked-dimension list. -/
def freeShapeSpec (shape : List Nat) (dims : List Nat) : List Nat :=
  ((List.range shape.length).filter fun i => !(dims.contains i)).map
    fun i => shape.getD i 0

/-- The number of views the spec promises: the product of the free extents,
and zero for an array with no elements. -/
def totalSteps (shape : List Nat) (dims : List Nat) : Nat :=
  if numel shape = 0 then 0 else (freeShapeSpec shape dims).prod

/-- Slice arguments determined by a Cartesian index buffer: a full range at
every stacked dimension and, at every free dimension, the buffer entry at
the position that dimension occupies in the iterated-dimension list. -/
def embedIdx (ndims : Nat) (dims ind : List Nat) (buf : List Nat) : List (Option Nat) :=
  (List.range ndims).map fun d =>
    if dims.contains d then none
    else some (buf.getD (ind.indexOf d) 0)

/-- The slice arguments the spec expects for the view of rank k: full ranges
at the stacked dimensions and the row-major coordinate of rank k spread over
the free dimensions. -/
def sliceSpecAt (cfg : IterConfig) (k : Nat) : List (Option Nat) :=
  embedIdx cfg.x.shape.length cfg.dims cfg.indices (rowMajorCoord cfg.sh k)

/-! Facts about the mixed-radix digit expansion and the carry step of the
odometer. -/

theorem mixedDigits_length (sh : List Nat) (k : Nat) :
    (mixedDigits sh k).length = sh.length := by
  induction sh generalizing k with
  | nil => rfl
  | cons s t ih => simp [mixedDigits, ih]

theorem mixedDigits_lt : ∀ (sh : List Nat), (∀ s ∈ sh, 0 < s) → ∀ k : Nat,
    List.Forall₂ (· < ·) (mixedDigits sh k) sh
  | [], _, _ => List.Forall₂.nil
  | s :: t, hpos, k => by
    refine List.Forall₂.cons ?_
      (mixedDigits_lt t (fun a ha => hpos a (List.mem_cons_of_mem s ha)) (k / s))
    exact Nat.mod_lt _ (hpos s (List.mem_cons_self s t))

theorem mixedDigits_zero (sh : List Nat) : mixedDigits sh 0 = List.replicate sh.length 0 := by
  induction sh with
  | nil => rfl
  | cons s t ih => simp [mixedDigits, ih, List.replicate]

theorem incCarry_mixedDigits : ∀ (sh : List Nat), (∀ s ∈ sh, 0 < s) → ∀ k : Nat,
    incCarry sh (mixedDigits sh k) = mixedDigits sh (k + 1)
  | [], _, _ => rfl
  | s :: t, hpos, k => by
    have hs : 0 < s := hpos s (List.mem_cons_self s t)
    have hts : ∀ a ∈ t, 0 < a := fun a ha => hpos a (List.mem_cons_of_mem s ha)
    have hk : k % s + s * (k / s) = k := Nat.mod_add_div k s
    by_cases hlt : k % s + 1 < s
    · have h1 : (k + 1) % s = k % s + 1 := by
        conv_lhs => rw [← hk]
        rw [show k % s + s * (k / s) + 1 = k % s + 1 + s * (k / s) by ring,
          Nat.add_mul_mod_self_left]
        exact Nat.mod_eq_of_lt hlt
      have h2 : (k + 1) / s = k / s := by
        conv_lhs => rw [← hk]
        rw [show k % s + s * (k / s) + 1 = k % s + 1 + s * (k / s) by ring,
          Nat.add_mul_div_left _ _ hs, Nat.div_eq_of_lt hlt, Nat.zero_add]
      simp [mixedDigits, incCarry, hlt, h1, h2]
    · have hmod : k % s < s := Nat.mod_lt _ hs
      have hsplit : k % s + s * (k / s) + 1 = s * (k / s + 1) := by
        rw [Nat.mul_add, Nat.mul_one]; omega
      have h1 : (k + 1) % s = 0 := by
        conv_lhs => rw [← hk]
        rw [hsplit]; exact Nat.mul_mod_right s _
      have h2 : (k + 1) / s = k / s + 1 := by
        conv_lhs => rw [← hk]
        rw [hsplit]; exact Nat.mul_div_cancel_left _ hs
      simp [mixedDigits, incCarry, hlt, h1, h2, incCarry_mixedDigits t hts (k / s)]

theorem mixedDigits_append (sh : List Nat) (s : Nat) (k : Nat) :
    mixedDigits (sh ++ [s]) k = mixedDigits sh k ++ [k / sh.prod % s] := by
  induction sh generalizing k with
  | nil => simp [mixedDigits]
  | cons x t ih => simp [mixedDigits, ih, Nat.div_div_eq_div_mul]

theorem rowMajorCoord_eq_reverse (sh : List Nat) (k : Nat) :
    rowMajorCoord sh k = (mixedDigits sh.reverse k).reverse := by
  induction sh generalizing k with
  | nil => rfl
  | cons s t ih =>
    rw [List.reverse_cons, mixedDigits_append, List.reverse_append]
    simp [rowMajorCoord, ih, List.prod_reverse]

theorem rowMajorCoord_length (sh : List Nat) (k : Nat) :
    (rowMajorCoord sh k).length = sh.length := by
  induction sh generalizing k with
  | nil => rfl
  | cons s t ih => simp [rowMajorCoord, ih]

theorem rowMajorCoord_lt : ∀ (sh : List Nat), (∀ s ∈ sh, 0 < s) → ∀ k : Nat,
    List.Forall₂ (· < ·) (rowMajorCoord sh k) sh
  | [], _, _ => List.Forall₂.nil
  | s :: t, hpos, k => by
    refine List.Forall₂.cons ?_
      (rowMajorCoord_lt t (fun a ha => hpos a (List.mem_cons_of_mem s ha)) k)
    exact Nat.mod_lt _ (hpos s (List.mem_cons_self s t))

theorem rowMajorCoord_zero (sh : List Nat) :
    rowMajorCoord sh 0 = List.replicate sh.length 0 := by
  induction sh with
  | nil => rfl
  | cons s t ih => simp [rowMajorCoord, ih, List.replicate]

theorem nextRM_rowMajorCoord (sh : List Nat) (hne : sh ≠ []) (hpos : ∀ s ∈ sh, 0 < s)
    (k : Nat) :
    nextCartesianIndexRM sh (rowMajorCoord sh k) = some (rowMajorCoord sh (k + 1)) := by
  unfold nextCartesianIndexRM
  rw [if_neg (by simpa using hne)]
  rw [rowMajorCoord_eq_reverse, List.reverse_reverse,
    incCarry_mixedDigits sh.reverse (fun a ha => hpos a (List.mem_reverse.mp ha)) k,
    ← rowMajorCoord_eq_reverse]

/-! Facts about the dimension bookkeeping helpers. -/

theorem contains_eq (l : List Nat) (a : Nat) : l.contains a = decide (a ∈ l) := by
  by_cases h : a ∈ l <;> simp [h, List.elem_iff]

theorem complementLoop_nil_right : ∀ (L : List Nat), complementLoop L [] = L
  | [] => rfl
  | _ :: is => by rw [complementLoop, complementLoop_nil_right is]

theorem complementLoop_subset : ∀ (L ds : List Nat), ∀ a ∈ complementLoop L ds, a ∈ L
  | [], ds => by intro a ha; simp [complementLoop] at ha
  | i :: is, [] => by
    intro a ha
    rw [complementLoop] at ha
    rcases List.mem_cons.mp ha with h | h
    · exact h ▸ List.mem_cons_self i is
    · exact List.mem_cons_of_mem i (complementLoop_subset is [] a h)
  | i :: is, d :: ds => by
    intro a ha
    rw [complementLoop] at ha
    by_cases hid : i = d
    · rw [if_pos hid] at ha
      exact List.mem_cons_of_mem i (complementLoop_subset is ds a ha)
    · rw [if_neg hid] at ha
      rcases List.mem_cons.mp ha with h | h
      · exact h ▸ List.mem_cons_self i is
      · exact List.mem_cons_of_mem i (complementLoop_subset is (d :: ds) a h)

theorem complementLoop_eq_filter : ∀ (L ds : List Nat), L.Nodup → List.Sublist ds L →
    complementLoop L ds = L.filter fun a => !(ds.contains a)
  | [], ds, _, hsub => by
    rw [List.sublist_nil.mp hsub]; rfl
  | i :: is, [], hnd, _ => by
    rw [complementLoop, complementLoop_nil_right]
    simp
  | i :: is, d :: ds, hnd, hsub => by
    rw [complementLoop]
    have hnotmem : i ∉ is := (List.nodup_cons.mp hnd).1
    by_cases hid : i = d
    · subst hid
      have hsub' : List.Sublist ds is := List.cons_sublist_cons.mp hsub
      rw [if_pos rfl, complementLoop_eq_filter is ds (List.nodup_cons.mp hnd).2 hsub']
      rw [List.filter_cons, if_neg (by simp [contains_eq])]
      refine List.filter_congr ?_
      intro a ha
      have hne : a ≠ i := fun h => hnotmem (h ▸ ha)
      simp [contains_eq, hne]
    · have hsub' : List.Sublist (d :: ds) is := by
        cases hsub with
        | cons _ h => exact h
        | cons₂ _ h => exact absurd rfl hid
      have hids : i ∉ d :: ds := fun h => hnotmem (hsub'.subset h)
      rw [if_neg hid, complementLoop_eq_filter is (d :: ds) (List.nodup_cons.mp hnd).2 hsub']
      rw [List.filter_cons, if_pos (by simp [contains_eq, hids])]

theorem filter_mem_of_sublist : ∀ (L ds : List Nat), L.Nodup → List.Sublist ds L →
    (L.filter fun a => ds.contains a) = ds
  | [], ds, _, hsub => by rw [List.sublist_nil.mp hsub]; rfl
  | i :: is, [], hnd, _ => by simp [contains_eq]
  | i :: is, d :: ds, hnd, hsub => by
    have hnotmem : i ∉ is := (List.nodup_cons.mp hnd).1
    by_cases hid : i = d
    · subst hid
      have hsub' : List.Sublist ds is := List.cons_sublist_cons.mp hsub
      rw [List.filter_cons, if_pos (by simp [contains_eq])]
      rw [← filter_mem_of_sublist is ds (List.nodup_cons.mp hnd).2 hsub']
      congr 1
      refine (List.filter_congr ?_).symm
      intro a ha
      have hne : a ≠ i := fun h => hnotmem (h ▸ ha)
      simp [contains_eq, hne]
      exact fun h => hsub'.subset h
    · have hsub' : List.Sublist (d :: ds) is := by
        cases hsub with
        | cons _ h => exact h
        | cons₂ _ h => exact absurd rfl hid
      have hids : i ∉ d :: ds := fun h => hnotmem (hsub'.subset h)
      rw [List.filter_cons, if_neg (by simp [contains_eq, hids])]
      exact filter_mem_of_sublist is (d :: ds) (List.nodup_cons.mp hnd).2 hsub'

theorem sorted_lt_sublist_range {nd : List Nat} {n : Nat} (hs : nd.Pairwise (· < ·))
    (hb : ∀ d ∈ nd, d < n) : List.Sublist nd (List.range n) := by
  haveI : IsAntisymm Nat (· ≤ ·) := ⟨fun _ _ => Nat.le_antisymm⟩
  have hnd : nd.Nodup := hs.imp fun hab => Nat.ne_of_lt hab
  refine List.sublist_of_subperm_of_sorted (r := (· ≤ ·)) ?_ ?_ ?_
  · exact hnd.subperm fun d hd => List.mem_range.mpr (hb d hd)
  · exact hs.imp Nat.le_of_lt
  · exact (List.sorted_lt_range n).imp Nat.le_of_lt

/-! Facts about the array helpers take, put, and setNulls. -/

theorem takeArr_eq_map {α : Type} (x : List α) (d : α) :
    ∀ (ind : List Nat), (∀ j ∈ ind, j < x.length) →
      takeArr x ind = some (ind.map fun j => x.getD j d)
  | [], _ => rfl
  | j :: js, hb => by
    have hj : j < x.length := hb j (List.mem_cons_self j js)
    rw [takeArr, takeArr_eq_map x d js (fun a ha => hb a (List.mem_cons_of_mem j ha)),
      List.getElem?_eq_getElem hj]
    simp [List.getD_eq_getElem x d hj]
    rw [List.getElem?_eq_getElem hj, Option.getD_some]

theorem takeVals_eq_replicate (idx : List (Option Nat)) :
    ∀ (ind : List Nat), (∀ j ∈ ind, idx[j]? = some (some 0)) →
      takeVals idx ind = some (List.replicate ind.length 0)
  | [], _ => rfl
  | j :: js, hb => by
    rw [takeVals, hb j (List.mem_cons_self j js),
      takeVals_eq_replicate idx js (fun a ha => hb a (List.mem_cons_of_mem j ha))]
    simp [List.replicate]

theorem setNulls_length : ∀ (ds : List Nat) (l : List (Option Nat)),
    (setNulls l ds).length = l.length
  | [], _ => rfl
  | d :: ds, l => by rw [setNulls, setNulls_length ds, List.length_set]

theorem setNulls_getElem? : ∀ (ds : List Nat) (l : List (Option Nat)),
    (∀ d ∈ ds, d < l.length) → ∀ p : Nat,
    (setNulls l ds)[p]? = if p ∈ ds then some none else l[p]?
  | [], l, _, p => by simp [setNulls]
  | d :: ds, l, hb, p => by
    rw [setNulls, setNulls_getElem? ds (l.set d none)
      (fun a ha => by rw [List.length_set]; exact hb a (List.mem_cons_of_mem d ha)) p]
    by_cases hp : p ∈ ds
    · rw [if_pos hp, if_pos (List.mem_cons_of_mem d hp)]
    · rw [if_neg hp]
      by_cases hpd : p = d
      · subst hpd
        have hlt : p < l.length := hb p (List.mem_cons_self p ds)
        rw [if_pos (List.mem_cons_self p ds)]
        simp [List.getElem?_set, hlt]
      · rw [if_neg (by simp [hpd, hp])]
        have hdp : ¬ d = p := fun h => hpd h.symm
        simp [List.getElem?_set, hdp]

theorem putArr_eq {α : Type} : ∀ (ind : List Nat) (x : List α) (vs : List α),
    ind.Nodup → (∀ j ∈ ind, j < x.length) → ind.length = vs.length →
    ∃ y, putArr x ind vs = some y ∧ y.length = x.length ∧
      ∀ p : Nat, y[p]? = if p ∈ ind then vs[ind.indexOf p]? else x[p]?
  | [], x, [], _, _, _ => ⟨x, rfl, rfl, fun p => by simp⟩
  | [], _, _ :: _, _, _, hlen => by simp at hlen
  | _ :: _, _, [], _, _, hlen => by simp at hlen
  | j :: js, x, v :: vs, hnd, hb, hlen => by
    have hj : j < x.length := hb j (List.mem_cons_self j js)
    have hnd' : js.Nodup := (List.nodup_cons.mp hnd).2
    have hjnot : j ∉ js := (List.nodup_cons.mp hnd).1
    obtain ⟨y, hy, hylen, hyget⟩ := putArr_eq js (x.set j v) vs hnd'
      (fun a ha => by rw [List.length_set]; exact hb a (List.mem_cons_of_mem j ha))
      (by simpa using hlen)
    refine ⟨y, ?_, by rw [hylen, List.length_set], ?_⟩
    · rw [putArr, if_pos hj, hy]
    · intro p
      rw [hyget p]
      by_cases hp : p ∈ js
      · have hpj : p ≠ j := fun h => hjnot (h ▸ hp)
        rw [if_pos hp, if_pos (List.mem_cons_of_mem j hp),
          List.indexOf_cons_ne _ (fun h => hpj h.symm)]
        simp
      · rw [if_neg hp]
        by_cases hpj : p = j
        · subst hpj
          rw [if_pos (List.mem_cons_self p js), List.indexOf_cons_self]
          simp [List.getElem?_set, hj]
        · rw [if_neg (by simp [hpj, hp])]
          have hjp : ¬ j = p := fun h => hpj h.symm
          simp [List.getElem?_set, hjp]

theorem getD_replicate_zero (n j : Nat) : (List.replicate n (0 : Nat)).getD j 0 = 0 := by
  by_cases h : j < n
  · rw [List.getD_eq_getElem _ _ (by simpa using h)]
    simp
  · rw [List.getD_eq_default _ _ (by simpa using h)]

/-! Facts about the validation helpers. -/

theorem checkSorted_ok_iff : ∀ (l : List Nat), checkSorted l = .ok () ↔ l.Chain' (· ≤ ·)
  | [] => by simp [checkSorted]
  | [a] => by simp [checkSorted]
  | a :: b :: t => by
    rw [checkSorted]
    by_cases h : a > b
    · rw [if_pos h]
      constructor
      · intro hh; exact absurd hh (by simp)
      · intro hh; exact absurd (List.chain'_cons.mp hh).1 (by omega)
    · rw [if_neg h, checkSorted_ok_iff (b :: t), List.chain'_cons]
      have hab : a ≤ b := by omega
      simp [hab]

theorem checkSorted_eq_or : ∀ (l : List Nat),
    checkSorted l = .ok () ∨ checkSorted l = .error .notSortedAscending
  | [] => .inl rfl
  | [_] => .inl rfl
  | a :: b :: t => by
    rw [checkSorted]
    by_cases h : a > b
    · exact .inr (by rw [if_pos h])
    · rw [if_neg h]; exact checkSorted_eq_or (b :: t)

theorem checkUnique_ok_iff : ∀ (l : List Nat), checkUnique l = .ok () ↔ l.Chain' (· ≠ ·)
  | [] => by simp [checkUnique]
  | [a] => by simp [checkUnique]
  | a :: b :: t => by
    rw [checkUnique]
    by_cases h : a = b
    · rw [if_pos h]
      constructor
      · intro hh; exact absurd hh (by simp)
      · intro hh; exact absurd h (List.chain'_cons.mp hh).1
    · rw [if_neg h, checkUnique_ok_iff (b :: t), List.chain'_cons]
      simp [h]

theorem checkUnique_eq_or : ∀ (l : List Nat),
    checkUnique l = .ok () ∨ checkUnique l = .error .notUnique
  | [] => .inl rfl
  | [_] => .inl rfl
  | a :: b :: t => by
    rw [checkUnique]
    by_cases h : a = b
    · exact .inr (by rw [if_pos h])
    · rw [if_neg h]; exact checkUnique_eq_or (b :: t)

theorem chain'_lt_iff_le_ne : ∀ (l : List Nat),
    l.Chain' (· < ·) ↔ (l.Chain' (· ≤ ·) ∧ l.Chain' (· ≠ ·))
  | [] => by simp
  | [a] => by simp
  | a :: b :: t => by
    rw [List.chain'_cons, List.chain'_cons, List.chain'_cons, chain'_lt_iff_le_ne (b :: t)]
    constructor
    · rintro ⟨hab, h1, h2⟩
      exact ⟨⟨Nat.le_of_lt hab, h1⟩, ⟨Nat.ne_of_lt hab, h2⟩⟩
    · rintro ⟨⟨hab, h1⟩, hne, h2⟩
      exact ⟨Nat.lt_of_le_of_ne hab hne, h1, h2⟩

theorem normalizeIndex_toNat_lt {d : Int} {n : Nat}
    (h : ¬ normalizeIndex d ((n : Int) - 1) = -1) :
    (normalizeIndex d ((n : Int) - 1)).toNat < n := by
  unfold normalizeIndex at *
  split_ifs at * with h1 h2
  · exact absurd rfl h
  · omega
  · omega

theorem normalizeDims_ok : ∀ (ds : List Int) (nd : List Nat) {n : Nat},
    normalizeDims n ds = .ok nd → nd.length = ds.length ∧ ∀ d ∈ nd, d < n
  | [], nd, n, h => by
    rw [normalizeDims] at h
    injection h with h
    subst h
    exact ⟨rfl, by simp⟩
  | d :: ds, nd, n, h => by
    rw [normalizeDims] at h
    by_cases hv : normalizeIndex d ((n : Int) - 1) = -1
    · rw [if_pos hv] at h; exact absurd h (by simp)
    · rw [if_neg hv] at h
      cases hrec : normalizeDims n ds with
      | error e => rw [hrec] at h; exact absurd h (by simp)
      | ok nd' =>
        rw [hrec] at h
        injection h with h
        subst h
        obtain ⟨hl, hb⟩ := normalizeDims_ok ds nd' hrec
        refine ⟨by simp [hl], ?_⟩
        intro a ha
        rcases List.mem_cons.mp ha with ha | ha
        · exact ha ▸ normalizeIndex_toNat_lt hv
        · exact hb a ha

/-! Facts about element counts and products over the dimension partition. -/

theorem map_getD_range (l : List Nat) :
    (List.range l.length).map (fun i => l.getD i 0) = l := by
  apply List.ext_getElem (by simp)
  intro i h1 h2
  simp only [List.getElem_map, List.getElem_range]
  exact List.getD_eq_getElem l 0 h2

theorem shape_pos_of_numel_ne {shape : List Nat} (h : numel shape ≠ 0) :
    ∀ s ∈ shape, 0 < s := by
  intro s hs
  rcases Nat.eq_zero_or_pos s with hz | hp
  · exfalso
    apply h
    unfold numel
    split
    · rfl
    · exact List.prod_eq_zero (hz ▸ hs)
  · exact hp

theorem prod_split (shape nd : List Nat) (hs : nd.Pairwise (· < ·))
    (hb : ∀ d ∈ nd, d < shape.length) :
    shape.prod = (nd.map fun d => shape.getD d 0).prod * (freeShapeSpec shape nd).prod := by
  have hsub := sorted_lt_sublist_range hs hb
  have hperm := List.filter_append_perm (fun a => nd.contains a) (List.range shape.length)
  have h1 : ((List.range shape.length).filter fun a => nd.contains a) = nd :=
    filter_mem_of_sublist _ _ (List.nodup_range _) hsub
  have h2 := (hperm.map fun i => shape.getD i 0).prod_eq
  rw [List.map_append, List.prod_append, h1, map_getD_range] at h2
  rw [← h2]
  rfl

theorem foldl_div (shape : List Nat) : ∀ (ds : List Nat) (K : Nat),
    (∀ d ∈ ds, 0 < shape.getD d 0) →
    List.foldl (fun n d => n / shape.getD d 0) ((ds.map fun d => shape.getD d 0).prod * K) ds
      = K
  | [], K, _ => by simp
  | d :: ds, K, hpos => by
    rw [List.foldl_cons, List.map_cons, List.prod_cons, Nat.mul_assoc,
      Nat.mul_div_cancel_left _ (hpos d (List.mem_cons_self d ds))]
    exact foldl_div shape ds K (fun a ha => hpos a (List.mem_cons_of_mem d ha))

/-! Characterization of a successful construction. -/

/-- Everything a successful construction guarantees, phrased over the stages
of the constructor. -/
structure SetupInv (x : Ndarray) (dims : List Int) (o : OptionsArg)
    (cfg : IterConfig) (st0 : CursorState) : Prop where
  hx : cfg.x = x
  hopt : processOptions x o = .ok cfg.writable
  hne : dims ≠ []
  hlen : dims.length < x.shape.length
  hnorm : normalizeDims x.shape.length dims = .ok cfg.dims
  hchain : cfg.dims.Chain' (· < ·)
  hN : cfg.N = cfg.dims.foldl (fun n d => n / x.shape.getD d 0) (numel x.shape)
  hind : cfg.indices = freeIndices x.shape.length cfg.dims
  hsh : takeArr x.shape cfg.indices = some cfg.sh
  hFLG : st0.FLG = decide (numel x.shape = 0)
  hi : st0.i = -1
  hidx : st0.idx = setNulls ((zerosArr x.shape.length).map some) cfg.dims
  hibuf : takeVals (setNulls ((zerosArr x.shape.length).map some) cfg.dims) cfg.indices
    = some st0.ibuf

theorem nditer_ok {x : Ndarray} {dims : List Int} {o : OptionsArg}
    {cfg : IterConfig} {st0 : CursorState}
    (h : nditerStacks x dims o = .ok (cfg, st0)) : SetupInv x dims o cfg st0 := by
  unfold nditerStacks at h
  split at h
  · exact absurd h (by simp)
  next hie =>
    have hne : dims ≠ [] := by
      intro hd
      subst hd
      exact hie rfl
    split at h
    · exact absurd h (by simp)
    next w hw =>
      split at h
      · exact absurd h (by simp)
      next hlen =>
        split at h
        · exact absurd h (by simp)
        next nd hnorm =>
          split at h
          · exact absurd h (by simp)
          next hsorted =>
            split at h
            · exact absurd h (by simp)
            next hunique =>
              split at h
              · next sh ibuf hsh hibuf =>
                injection h with h2
                obtain ⟨hcfg, hst⟩ := Prod.mk.injEq _ _ _ _ |>.mp h2
                subst hcfg
                subst hst
                refine ⟨rfl, hw, hne, by omega, hnorm, ?_, rfl, rfl, hsh, rfl, rfl, rfl,
                  hibuf⟩
                rw [chain'_lt_iff_le_ne]
                exact ⟨(checkSorted_ok_iff nd).mp hsorted, (checkUnique_ok_iff nd).mp hunique⟩
              · exact absurd h (by simp)

/-- Structural facts about the configuration of a constructed iterator. -/
structure CfgOk (cfg : IterConfig) : Prop where
  dimsLt : ∀ d ∈ cfg.dims, d < cfg.x.shape.length
  dimsSorted : cfg.dims.Pairwise (· < ·)
  dimsLenLt : cfg.dims.length < cfg.x.shape.length
  indEq : cfg.indices = (List.range cfg.x.shape.length).filter fun i => !(cfg.dims.contains i)
  shEq : cfg.sh = cfg.indices.map fun j => cfg.x.shape.getD j 0

/-- Additional facts about the configuration when the array has elements. -/
structure CfgPos (cfg : IterConfig) : Prop where
  shPos : ∀ s ∈ cfg.sh, 0 < s
  NEq : cfg.N = cfg.sh.prod

theorem SetupInv.cfgOk {x : Ndarray} {dims : List Int} {o : OptionsArg}
    {cfg : IterConfig} {st0 : CursorState}
    (hs : SetupInv x dims o cfg st0) : CfgOk cfg := by
  obtain ⟨hl, hb⟩ := normalizeDims_ok dims cfg.dims hs.hnorm
  have hxs : cfg.x.shape = x.shape := by rw [hs.hx]
  have hsorted : cfg.dims.Pairwise (· < ·) := by
    haveI : IsTrans Nat (· < ·) := ⟨fun _ _ _ => Nat.lt_trans⟩
    exact List.chain'_iff_pairwise.mp hs.hchain
  have hsub : List.Sublist cfg.dims (List.range x.shape.length) :=
    sorted_lt_sublist_range hsorted hb
  have hindf : cfg.indices
      = (List.range x.shape.length).filter fun i => !(cfg.dims.contains i) := by
    rw [hs.hind, freeIndices, complementLoop_eq_filter _ _ (List.nodup_range _) hsub]
  refine ⟨by rw [hxs]; exact hb, hsorted, by rw [hxs, hl]; exact hs.hlen,
    by rw [hxs]; exact hindf, ?_⟩
  have hbnd : ∀ j ∈ cfg.indices, j < x.shape.length := by
    intro j hj
    rw [hindf] at hj
    exact List.mem_range.mp (List.mem_filter.mp hj).1
  have hmap := takeArr_eq_map x.shape 0 cfg.indices hbnd
  rw [hs.hsh] at hmap
  injection hmap with h2
  rw [hxs]
  exact h2

theorem CfgOk.indices_nodup {cfg : IterConfig} (hc : CfgOk cfg) : cfg.indices.Nodup := by
  rw [hc.indEq]; exact (List.nodup_range _).filter _

theorem CfgOk.mem_indices {cfg : IterConfig} (hc : CfgOk cfg) (p : Nat) :
    p ∈ cfg.indices ↔ p < cfg.x.shape.length ∧ p ∉ cfg.dims := by
  rw [hc.indEq, List.mem_filter, List.mem_range]
  simp [contains_eq]

theorem CfgOk.dims_indices_length {cfg : IterConfig} (hc : CfgOk cfg) :
    cfg.dims.length + cfg.indices.length = cfg.x.shape.length := by
  have hsub : List.Sublist cfg.dims (List.range cfg.x.shape.length) :=
    sorted_lt_sublist_range hc.dimsSorted hc.dimsLt
  have hperm := List.filter_append_perm (fun a => cfg.dims.contains a)
    (List.range cfg.x.shape.length)
  have hlen := hperm.length_eq
  rw [List.length_append, filter_mem_of_sublist _ _ (List.nodup_range _) hsub,
    List.length_range, ← hc.indEq] at hlen
  exact hlen

theorem CfgOk.indices_ne_nil {cfg : IterConfig} (hc : CfgOk cfg) : cfg.indices ≠ [] := by
  intro h
  have hlen := hc.dims_indices_length
  rw [h] at hlen
  simp at hlen
  have := hc.dimsLenLt
  omega

theorem CfgOk.sh_length {cfg : IterConfig} (hc : CfgOk cfg) :
    cfg.sh.length = cfg.indices.length := by
  rw [hc.shEq, List.length_map]

theorem CfgOk.sh_ne_nil {cfg : IterConfig} (hc : CfgOk cfg) : cfg.sh ≠ [] := by
  intro h
  apply hc.indices_ne_nil
  have hlen := hc.sh_length
  rw [h] at hlen
  exact List.length_eq_zero.mp hlen.symm

theorem SetupInv.cfgPos {x : Ndarray} {dims : List Int} {o : OptionsArg}
    {cfg : IterConfig} {st0 : CursorState}
    (hs : SetupInv x dims o cfg st0) (hnz : numel x.shape ≠ 0) : CfgPos cfg := by
  have hc := hs.cfgOk
  have hxs : cfg.x.shape = x.shape := by rw [hs.hx]
  have hpos := shape_pos_of_numel_ne hnz
  have hshpos : ∀ s ∈ cfg.sh, 0 < s := by
    intro s hsm
    rw [hc.shEq] at hsm
    obtain ⟨j, hj, hjs⟩ := List.mem_map.mp hsm
    have hjlt : j < x.shape.length := by
      have hm := (hc.mem_indices j).mp hj
      rw [hxs] at hm
      exact hm.1
    rw [← hjs, hxs, List.getD_eq_getElem _ _ hjlt]
    exact hpos _ (List.getElem_mem _)
  refine ⟨hshpos, ?_⟩
  have hnumel : numel x.shape = x.shape.prod := by
    unfold numel
    rw [if_neg ?_]
    intro hemp
    have hnil : x.shape = [] := by simpa using hemp
    have := hs.hlen
    rw [hnil] at this
    simp at this
  have hdimspos : ∀ d ∈ cfg.dims, 0 < x.shape.getD d 0 := by
    intro d hd
    have hdlt : d < x.shape.length := by
      have := hc.dimsLt d hd
      rwa [hxs] at this
    rw [List.getD_eq_getElem _ _ hdlt]
    exact hpos _ (List.getElem_mem _)
  have hdb : ∀ d ∈ cfg.dims, d < x.shape.length := by
    intro d hd
    have := hc.dimsLt d hd
    rwa [hxs] at this
  have hsplit := prod_split x.shape cfg.dims hc.dimsSorted hdb
  have hfree : freeShapeSpec x.shape cfg.dims = cfg.sh := by
    rw [freeShapeSpec]
    have hind := hc.indEq
    rw [hxs] at hind
    rw [← hind, hc.shEq, hxs]
  rw [hs.hN, hnumel, hsplit, hfree]
  exact foldl_div x.shape cfg.dims cfg.sh.prod hdimspos

theorem embedIdx_getElem? (n : Nat) (ds ind buf : List Nat) (p : Nat) :
    (embedIdx n ds ind buf)[p]? =
      if p < n then some (if p ∈ ds then none else some (buf.getD (ind.indexOf p) 0))
      else none := by
  unfold embedIdx
  by_cases hp : p < n
  · rw [List.getElem?_eq_getElem (by simpa using hp)]
    simp [hp, contains_eq]
  · rw [List.getElem?_eq_none (by simpa using Nat.le_of_not_lt hp), if_neg hp]

theorem embedIdx_length (n : Nat) (ds ind buf : List Nat) :
    (embedIdx n ds ind buf).length = n := by
  simp [embedIdx]

theorem SetupInv.ibuf0 {x : Ndarray} {dims : List Int} {o : OptionsArg}
    {cfg : IterConfig} {st0 : CursorState} (hs : SetupInv x dims o cfg st0) :
    st0.ibuf = List.replicate cfg.indices.length 0 := by
  have hc := hs.cfgOk
  have hxs : cfg.x.shape = x.shape := by rw [hs.hx]
  have hdb : ∀ d ∈ cfg.dims, d < ((zerosArr x.shape.length).map some).length := by
    intro d hd
    have := hc.dimsLt d hd
    rw [hxs] at this
    simpa [zerosArr] using this
  have hjval : ∀ j ∈ cfg.indices,
      (setNulls ((zerosArr x.shape.length).map some) cfg.dims)[j]? = some (some 0) := by
    intro j hj
    have hm := (hc.mem_indices j).mp hj
    rw [hxs] at hm
    rw [setNulls_getElem? _ _ hdb j, if_neg hm.2]
    simp [zerosArr, hm.1]
  have hrep := takeVals_eq_replicate _ cfg.indices hjval
  rw [hs.hibuf] at hrep
  exact Option.some.inj hrep

theorem SetupInv.idx0 {x : Ndarray} {dims : List Int} {o : OptionsArg}
    {cfg : IterConfig} {st0 : CursorState} (hs : SetupInv x dims o cfg st0) :
    st0.idx = embedIdx cfg.x.shape.length cfg.dims cfg.indices st0.ibuf := by
  have hc := hs.cfgOk
  have hxs : cfg.x.shape = x.shape := by rw [hs.hx]
  have hdb : ∀ d ∈ cfg.dims, d < ((zerosArr x.shape.length).map some).length := by
    intro d hd
    have := hc.dimsLt d hd
    rw [hxs] at this
    simpa [zerosArr] using this
  apply List.ext_getElem?
  intro p
  rw [hs.hidx, setNulls_getElem? _ _ hdb p, embedIdx_getElem?, hxs, hs.ibuf0]
  by_cases hpd : p ∈ cfg.dims
  · rw [if_pos hpd, if_pos (by have := hc.dimsLt p hpd; rwa [hxs] at this), if_pos hpd]
  · rw [if_neg hpd]
    by_cases hpn : p < x.shape.length
    · rw [if_pos hpn, if_neg hpd]
      simp [zerosArr, hpn, getD_replicate_zero]
    · rw [if_neg hpn]
      simp [zerosArr, Nat.le_of_not_lt hpn]

/-! The cursor invariant and the behaviour of one step. -/

/-- The cursor invariant maintained from construction through every call:
the slice-argument array is determined by the Cartesian index buffer, whose
entries stay within the iterated extents. -/
structure Inv (cfg : IterConfig) (st : CursorState) : Prop where
  hidx : st.idx = embedIdx cfg.x.shape.length cfg.dims cfg.indices st.ibuf
  hbuf : List.Forall₂ (· < ·) st.ibuf cfg.sh

theorem forall₂_zero_lt : ∀ (sh : List Nat), (∀ s ∈ sh, 0 < s) →
    List.Forall₂ (· < ·) (List.replicate sh.length 0) sh
  | [], _ => List.Forall₂.nil
  | s :: t, hpos => by
    rw [List.length_cons, List.replicate]
    exact List.Forall₂.cons (hpos s (List.mem_cons_self s t))
      (forall₂_zero_lt t fun a ha => hpos a (List.mem_cons_of_mem s ha))

theorem SetupInv.inv {x : Ndarray} {dims : List Int} {o : OptionsArg}
    {cfg : IterConfig} {st0 : CursorState}
    (hs : SetupInv x dims o cfg st0) (hnz : numel x.shape ≠ 0) : Inv cfg st0 := by
  have hc := hs.cfgOk
  have hp := hs.cfgPos hnz
  refine ⟨hs.idx0, ?_⟩
  rw [hs.ibuf0, ← hc.sh_length]
  exact forall₂_zero_lt cfg.sh hp.shPos

theorem forall₂_lt_get : ∀ {l₁ l₂ : List Nat}, List.Forall₂ (· < ·) l₁ l₂ →
    ∀ (i : Nat) (h1 : i < l₁.length) (h2 : i < l₂.length), l₁[i] < l₂[i]
  | _, _, List.Forall₂.nil, i, h1, _ => absurd h1 (by simp)
  | _, _, List.Forall₂.cons hv _, 0, _, _ => hv
  | _, _, List.Forall₂.cons _ hw, i + 1, h1, h2 =>
    forall₂_lt_get hw i (by simpa using h1) (by simpa using h2)

theorem incCarry_forall₂ : ∀ {sh buf : List Nat}, (∀ s ∈ sh, 0 < s) →
    List.Forall₂ (· < ·) buf sh → List.Forall₂ (· < ·) (incCarry sh buf) sh
  | _, _, _, List.Forall₂.nil => List.Forall₂.nil
  | s :: t, _ :: _, hpos, List.Forall₂.cons hv hw => by
    rw [incCarry]
    split
    · next hlt => exact List.Forall₂.cons hlt hw
    · next hlt =>
      exact List.Forall₂.cons (hpos s (List.mem_cons_self s t))
        (incCarry_forall₂ (fun a ha => hpos a (List.mem_cons_of_mem s ha)) hw)

theorem nextRM_eq (sh buf : List Nat) (hne : sh ≠ []) :
    nextCartesianIndexRM sh buf = some ((incCarry sh.reverse buf.reverse).reverse) := by
  unfold nextCartesianIndexRM
  rw [if_neg (by simpa using hne)]

theorem incCarry_reversed_forall₂ {sh buf : List Nat} (hpos : ∀ s ∈ sh, 0 < s)
    (hb : List.Forall₂ (· < ·) buf sh) :
    List.Forall₂ (· < ·) ((incCarry sh.reverse buf.reverse).reverse) sh := by
  have h1 : List.Forall₂ (· < ·) buf.reverse sh.reverse :=
    List.forall₂_reverse_iff.mpr hb
  have h2 := incCarry_forall₂ (fun a ha => hpos a (List.mem_reverse.mp ha)) h1
  have h3 := List.forall₂_reverse_iff.mpr h2
  rwa [List.reverse_reverse] at h3

theorem specInBounds_true (shape : List Nat) (s : List (Option Nat))
    (h : ∀ (t : Nat) (h1 : t < shape.length) (h2 : t < s.length) (v : Nat),
      s[t] = some v → v < shape[t]) :
    specInBounds shape s = true := by
  unfold specInBounds
  rw [List.all_eq_true]
  intro p hp
  obtain ⟨t, ht, hpt⟩ := List.mem_iff_getElem.mp hp
  have hts : t < shape.length ∧ t < s.length := by
    rw [List.length_zip] at ht
    omega
  rw [← hpt, List.getElem_zip]
  cases hsv : s[t] with
  | none => simp
  | some v => simp [h t hts.1 hts.2 v hsv]

theorem next_done_eq (cfg : IterConfig) (st : CursorState)
    (hdone : st.FLG = true ∨ st.i + 1 ≥ (cfg.N : Int)) :
    next cfg st = (.doneRes, { st with i := st.i + 1 }) := by
  unfold next
  rw [if_pos hdone]

theorem next_value_eq (cfg : IterConfig) (st : CursorState)
    (hc : CfgOk cfg) (hp : CfgPos cfg) (hi : Inv cfg st)
    (hflg : ¬ st.FLG = true) (hlt : ¬ st.i + 1 ≥ (cfg.N : Int)) :
    next cfg st =
      (.value ⟨cfg.x, st.idx, cfg.writable⟩,
       ⟨st.FLG, st.i + 1,
        embedIdx cfg.x.shape.length cfg.dims cfg.indices
          ((incCarry cfg.sh.reverse st.ibuf.reverse).reverse),
        (incCarry cfg.sh.reverse st.ibuf.reverse).reverse⟩) := by
  have hb2 : List.Forall₂ (· < ·) ((incCarry cfg.sh.reverse st.ibuf.reverse).reverse) cfg.sh :=
    incCarry_reversed_forall₂ hp.shPos hi.hbuf
  set b2 := (incCarry cfg.sh.reverse st.ibuf.reverse).reverse with hb2def
  have hlbuf : st.ibuf.length = cfg.sh.length := hi.hbuf.length_eq
  have hlb2 : b2.length = cfg.sh.length := hb2.length_eq
  have hlind : cfg.indices.length = cfg.sh.length := hc.sh_length.symm
  have hidxlen : st.idx.length = cfg.x.shape.length := by rw [hi.hidx, embedIdx_length]
  have hbnd : ∀ j ∈ cfg.indices, j < st.idx.length := by
    intro j hj
    rw [hidxlen]
    exact ((hc.mem_indices j).mp hj).1
  obtain ⟨y, hy, hylen, hyget⟩ := putArr_eq cfg.indices st.idx (b2.map some)
    hc.indices_nodup hbnd (by rw [List.length_map, hlb2, hlind])
  have hyeq : y = embedIdx cfg.x.shape.length cfg.dims cfg.indices b2 := by
    apply List.ext_getElem?
    intro p
    rw [hyget p, embedIdx_getElem?]
    by_cases hpi : p ∈ cfg.indices
    · obtain ⟨hpn, hpd⟩ := (hc.mem_indices p).mp hpi
      rw [if_pos hpi, if_pos hpn, if_neg hpd]
      have hio : cfg.indices.indexOf p < cfg.indices.length :=
        List.indexOf_lt_length.mpr hpi
      have hio2 : cfg.indices.indexOf p < b2.length := by omega
      rw [List.getElem?_map, List.getElem?_eq_getElem hio2]
      simp [List.getD_eq_getElem b2 0 hio2]
      rw [List.getElem?_eq_getElem hio2, Option.getD_some]
    · rw [if_neg hpi, hi.hidx, embedIdx_getElem?]
      by_cases hpn : p < cfg.x.shape.length
      · have hpd : p ∈ cfg.dims := by
          by_contra hnd
          exact hpi ((hc.mem_indices p).mpr ⟨hpn, hnd⟩)
        rw [if_pos hpn, if_pos hpn, if_pos hpd, if_pos hpd]
      · rw [if_neg hpn, if_neg hpn]
  have hsb : specInBounds cfg.x.shape st.idx = true := by
    apply specInBounds_true
    intro t h1 h2 v hv
    have hq : st.idx[t]? = some (some v) := by
      rw [List.getElem?_eq_getElem h2, hv]
    rw [hi.hidx, embedIdx_getElem?, if_pos h1] at hq
    by_cases htd : t ∈ cfg.dims
    · rw [if_pos htd] at hq
      exact absurd (Option.some.inj hq) (by simp)
    · rw [if_neg htd] at hq
      have hvv : v = st.ibuf.getD (cfg.indices.indexOf t) 0 :=
        (Option.some.inj (Option.some.inj hq)).symm
      have hti : t ∈ cfg.indices := (hc.mem_indices t).mpr ⟨h1, htd⟩
      have hio : cfg.indices.indexOf t < cfg.indices.length :=
        List.indexOf_lt_length.mpr hti
      have hio2 : cfg.indices.indexOf t < st.ibuf.length := by omega
      have hio3 : cfg.indices.indexOf t < cfg.sh.length := by omega
      have hlt2 := forall₂_lt_get hi.hbuf (cfg.indices.indexOf t) hio2 hio3
      have hge : cfg.indices[cfg.indices.indexOf t] = t := List.getElem_indexOf hio
      have hsht : cfg.sh.getD (cfg.indices.indexOf t) 0 = cfg.x.shape.getD t 0 := by
        rw [hc.shEq, List.getD_eq_getElem _ _ (by rw [List.length_map]; omega),
          List.getElem_map, hge]
      calc v = st.ibuf[cfg.indices.indexOf t] := by rw [hvv, List.getD_eq_getElem _ _ hio2]
      _ < cfg.sh[cfg.indices.indexOf t] := hlt2
      _ = cfg.sh.getD (cfg.indices.indexOf t) 0 := (List.getD_eq_getElem _ _ hio3).symm
      _ = cfg.x.shape.getD t 0 := hsht
      _ = cfg.x.shape[t] := List.getD_eq_getElem _ _ h1
  have h1 : nextCartesianIndexRM cfg.sh st.ibuf = some b2 :=
    nextRM_eq cfg.sh st.ibuf hc.sh_ne_nil
  have hslice : sliceView cfg.x (args2multislice st.idx) cfg.writable
      = some ⟨cfg.x, st.idx, cfg.writable⟩ := by
    unfold sliceView args2multislice
    rw [if_pos ⟨hidxlen, hsb⟩]
  unfold next
  rw [if_neg (not_or.mpr ⟨hflg, hlt⟩), h1]
  dsimp only
  rw [hy]
  dsimp only
  rw [hslice, hyeq]

/-! Behaviour of whole call sequences. -/

theorem run_flg (cfg : IterConfig) : ∀ (cs : List Call) (st : CursorState), st.FLG = true →
    (run cfg st cs).2.FLG = true ∧ ∀ r ∈ (run cfg st cs).1, r = .doneRes
  | [], _, h => ⟨h, by simp [run]⟩
  | c :: cs, st, h => by
    cases c with
    | ret =>
      have hrec := run_flg cfg cs { st with FLG := true } rfl
      simp only [run, stepCall, endIter]
      refine ⟨hrec.1, ?_⟩
      intro r hr
      rcases List.mem_cons.mp hr with h1 | h1
      · exact h1
      · exact hrec.2 r h1
    | next =>
      have hnd := next_done_eq cfg st (Or.inl h)
      have hrec := run_flg cfg cs { st with i := st.i + 1 } (by simpa using h)
      simp only [run, stepCall, hnd]
      refine ⟨hrec.1, ?_⟩
      intro r hr
      rcases List.mem_cons.mp hr with h1 | h1
      · exact h1
      · exact hrec.2 r h1

theorem run_ok {cfg : IterConfig} (hc : CfgOk cfg) (hp : CfgPos cfg) :
    ∀ (cs : List Call) (st : CursorState), Inv cfg st →
      Inv cfg (run cfg st cs).2 ∧ ∀ r ∈ (run cfg st cs).1, ∀ m, r ≠ .err m
  | [], _, hi => ⟨hi, by simp [run]⟩
  | c :: cs, st, hi => by
    cases c with
    | ret =>
      have hinv2 : Inv cfg { st with FLG := true } := ⟨hi.hidx, hi.hbuf⟩
      have hrec := run_ok hc hp cs { st with FLG := true } hinv2
      simp only [run, stepCall, endIter]
      refine ⟨hrec.1, ?_⟩
      intro r hr m
      rcases List.mem_cons.mp hr with h1 | h1
      · subst h1; simp
      · exact hrec.2 r h1 m
    | next =>
      by_cases hdone : st.FLG = true ∨ st.i + 1 ≥ (cfg.N : Int)
      · have hnd := next_done_eq cfg st hdone
        have hinv2 : Inv cfg { st with i := st.i + 1 } := ⟨hi.hidx, hi.hbuf⟩
        have hrec := run_ok hc hp cs _ hinv2
        simp only [run, stepCall, hnd]
        refine ⟨hrec.1, ?_⟩
        intro r hr m
        rcases List.mem_cons.mp hr with h1 | h1
        · subst h1; simp
        · exact hrec.2 r h1 m
      · obtain ⟨hflg, hlt⟩ := not_or.mp hdone
        have hnv := next_value_eq cfg st hc hp hi hflg hlt
        have hinv2 : Inv cfg ⟨st.FLG, st.i + 1,
            embedIdx cfg.x.shape.length cfg.dims cfg.indices
              ((incCarry cfg.sh.reverse st.ibuf.reverse).reverse),
            (incCarry cfg.sh.reverse st.ibuf.reverse).reverse⟩ :=
          ⟨rfl, incCarry_reversed_forall₂ hp.shPos hi.hbuf⟩
        have hrec := run_ok hc hp cs _ hinv2
        simp only [run, stepCall, hnv]
        refine ⟨hrec.1, ?_⟩
        intro r hr m
        rcases List.mem_cons.mp hr with h1 | h1
        · subst h1; simp
        · exact hrec.2 r h1 m

theorem stateAfterNexts_flg (cfg : IterConfig) {st0 : CursorState} (h : st0.FLG = true) :
    ∀ k : Nat, (stateAfterNexts cfg st0 k).FLG = true
  | 0 => h
  | k + 1 => by
    rw [stateAfterNexts]
    have hk := stateAfterNexts_flg cfg h k
    rw [next_done_eq _ _ (Or.inl hk)]
    simpa using hk

theorem stateAfterNexts_eq {cfg : IterConfig} {st0 : CursorState}
    (hc : CfgOk cfg) (hp : CfgPos cfg)
    (hflg : st0.FLG = false) (hi0 : st0.i = -1)
    (hbuf0 : st0.ibuf = rowMajorCoord cfg.sh 0)
    (hidx0 : st0.idx = embedIdx cfg.x.shape.length cfg.dims cfg.indices st0.ibuf) :
    ∀ k : Nat, stateAfterNexts cfg st0 k =
      ⟨false, (k : Int) - 1,
       embedIdx cfg.x.shape.length cfg.dims cfg.indices
         (rowMajorCoord cfg.sh (min k cfg.N)),
       rowMajorCoord cfg.sh (min k cfg.N)⟩
  | 0 => by
    have hself : st0 = ⟨st0.FLG, st0.i, st0.idx, st0.ibuf⟩ := rfl
    rw [stateAfterNexts, hself, hflg, hi0, hidx0, hbuf0]
    have hmin : min 0 cfg.N = 0 := Nat.zero_min cfg.N
    rw [hmin]
    rfl
  | k + 1 => by
    rw [stateAfterNexts, stateAfterNexts_eq hc hp hflg hi0 hbuf0 hidx0 k]
    have hstep : ((incCarry cfg.sh.reverse (rowMajorCoord cfg.sh (min k cfg.N)).reverse).reverse)
        = rowMajorCoord cfg.sh (min k cfg.N + 1) := by
      have h1 := nextRM_rowMajorCoord cfg.sh hc.sh_ne_nil hp.shPos (min k cfg.N)
      have h2 := nextRM_eq cfg.sh (rowMajorCoord cfg.sh (min k cfg.N)) hc.sh_ne_nil
      exact Option.some.inj (h2.symm.trans h1)
    by_cases hk : k < cfg.N
    · have hm : min k cfg.N = k := by omega
      have hm2 : min (k + 1) cfg.N = k + 1 := by omega
      have hval := next_value_eq cfg ⟨false, (k : Int) - 1,
          embedIdx cfg.x.shape.length cfg.dims cfg.indices
            (rowMajorCoord cfg.sh (min k cfg.N)),
          rowMajorCoord cfg.sh (min k cfg.N)⟩ hc hp
        ⟨rfl, rowMajorCoord_lt cfg.sh hp.shPos (min k cfg.N)⟩
        (by simp)
        (by dsimp only; omega)
      rw [hval]
      dsimp only
      rw [hstep, hm, hm2]
      congr 1
      omega
    · have hm : min k cfg.N = cfg.N := by omega
      have hm2 : min (k + 1) cfg.N = cfg.N := by omega
      have hnd := next_done_eq cfg ⟨false, (k : Int) - 1,
          embedIdx cfg.x.shape.length cfg.dims cfg.indices
            (rowMajorCoord cfg.sh (min k cfg.N)),
          rowMajorCoord cfg.sh (min k cfg.N)⟩
        (Or.inr (by dsimp only; omega))
      rw [hnd]
      dsimp only
      rw [hm, hm2]
      congr 1
      omega

/-! Counting the produced views. -/

/-- Remaining production budget of a cursor: zero once finished, otherwise
the distance from the counter to the subarray count. -/
def phi (cfg : IterConfig) (st : CursorState) : Nat :=
  if st.FLG = true then 0 else ((cfg.N : Int) - (st.i + 1)).toNat

theorem next_state_shape (cfg : IterConfig) (st : CursorState) :
    (next cfg st).2.i = st.i + 1 ∧ (next cfg st).2.FLG = st.FLG := by
  unfold next
  split
  · exact ⟨rfl, rfl⟩
  · split
    · exact ⟨rfl, rfl⟩
    · split
      · exact ⟨rfl, rfl⟩
      · split
        · exact ⟨rfl, rfl⟩
        · exact ⟨rfl, rfl⟩

theorem next_value_cond {cfg : IterConfig} {st : CursorState} {v : NdView}
    (h : (next cfg st).1 = .value v) :
    st.FLG = false ∧ st.i + 1 < (cfg.N : Int) := by
  unfold next at h
  by_cases hdone : st.FLG = true ∨ st.i + 1 ≥ (cfg.N : Int)
  · rw [if_pos hdone] at h
    exact absurd h (by simp)
  · obtain ⟨h1, h2⟩ := not_or.mp hdone
    exact ⟨by simpa using h1, by omega⟩

theorem countViews_le_phi (cfg : IterConfig) :
    ∀ (cs : List Call) (st : CursorState), countViews (run cfg st cs).1 ≤ phi cfg st
  | [], st => by simp [run, countViews]
  | c :: cs, st => by
    have hrec := countViews_le_phi cfg cs (stepCall cfg st c).2
    have hsplit : countViews (run cfg st (c :: cs)).1 =
        countViews (run cfg (stepCall cfg st c).2 cs).1 +
          countViews [(stepCall cfg st c).1] := by
      simp [run, countViews, List.countP_cons]
    rw [hsplit]
    cases c with
    | ret =>
      have h0 : phi cfg (stepCall cfg st .ret).2 = 0 := by simp [stepCall, endIter, phi]
      rw [h0] at hrec
      have hz : countViews [(stepCall cfg st .ret).1] = 0 := by
        simp [stepCall, endIter, countViews]
      rw [hz]
      have : countViews (run cfg (stepCall cfg st .ret).2 cs).1 = 0 := Nat.le_zero.mp hrec
      rw [this]
      exact Nat.zero_le _
    | next =>
      have hshape := next_state_shape cfg st
      cases hres : (next cfg st).1 with
      | value v =>
        obtain ⟨hflg, hlt⟩ := next_value_cond hres
        have hone : countViews [(stepCall cfg st .next).1] = 1 := by
          simp [stepCall, hres, countViews]
        rw [hone]
        have hphi : phi cfg (stepCall cfg st .next).2 + 1 ≤ phi cfg st := by
          unfold phi
          simp only [stepCall, hshape.1, hshape.2, hflg]
          simp only [Bool.false_eq_true, if_false]
          omega
        omega
      | doneRes =>
        have hz : countViews [(stepCall cfg st .next).1] = 0 := by
          simp [stepCall, hres, countViews]
        rw [hz]
        have hphi : phi cfg (stepCall cfg st .next).2 ≤ phi cfg st := by
          unfold phi
          simp only [stepCall, hshape.1, hshape.2]
          split
          · exact Nat.le_refl 0
          · omega
        omega
      | err m =>
        have hz : countViews [(stepCall cfg st .next).1] = 0 := by
          simp [stepCall, hres, countViews]
        rw [hz]
        have hphi : phi cfg (stepCall cfg st .next).2 ≤ phi cfg st := by
          unfold phi
          simp only [stepCall, hshape.1, hshape.2]
          split
          · exact Nat.le_refl 0
          · omega
        omega

theorem SetupInv.hfree {x : Ndarray} {dims : List Int} {o : OptionsArg}
    {cfg : IterConfig} {st0 : CursorState} (hs : SetupInv x dims o cfg st0) :
    freeShapeSpec x.shape cfg.dims = cfg.sh := by
  have hc := hs.cfgOk
  have hxs : cfg.x.shape = x.shape := by rw [hs.hx]
  rw [freeShapeSpec]
  have hind := hc.indEq
  rw [hxs] at hind
  rw [← hind, hc.shEq, hxs]

theorem SetupInv.phi_init {x : Ndarray} {dims : List Int} {o : OptionsArg}
    {cfg : IterConfig} {st0 : CursorState} (hs : SetupInv x dims o cfg st0) :
    phi cfg st0 = totalSteps x.shape cfg.dims := by
  unfold phi totalSteps
  by_cases hz : numel x.shape = 0
  · rw [if_pos (by rw [hs.hFLG]; simp [hz]), if_pos hz]
  · have hp := hs.cfgPos hz
    rw [if_neg (by rw [hs.hFLG]; simp [hz]), if_neg hz, hs.hi, hp.NEq, hs.hfree]
    omega

/-! Monotonicity of the finished signal, and the shapes of results. -/

/-- Condition under which a next call returns the done object. -/
def doneCond (cfg : IterConfig) (st : CursorState) : Prop :=
  st.FLG = true ∨ st.i + 1 ≥ (cfg.N : Int)

theorem next_done_of_doneCond {cfg : IterConfig} {st : CursorState}
    (h : doneCond cfg st) : (next cfg st).1 = .doneRes := by
  rw [next_done_eq _ _ h]

theorem sliceView_inv {x : Ndarray} {s : List (Option Nat)} {w : Bool} {v : NdView}
    (h : sliceView x s w = some v) : v = ⟨x, s, w⟩ := by
  unfold sliceView at h
  split at h
  · exact (Option.some.inj h).symm
  · exact absurd h (by simp)

theorem next_res_not_done {cfg : IterConfig} {st : CursorState}
    (h1 : ¬ st.FLG = true) (h2 : ¬ st.i + 1 ≥ (cfg.N : Int)) :
    (∃ m, (next cfg st).1 = .err m) ∨
      ∃ s, (next cfg st).1 = .value ⟨cfg.x, s, cfg.writable⟩ := by
  unfold next
  rw [if_neg (not_or.mpr ⟨h1, h2⟩)]
  split
  · exact .inl ⟨_, rfl⟩
  · split
    · exact .inl ⟨_, rfl⟩
    · split
      · exact .inl ⟨_, rfl⟩
      · next v0 heq =>
        exact .inr ⟨args2multislice st.idx, by rw [sliceView_inv heq]⟩

theorem next_res_cases (cfg : IterConfig) (st : CursorState) :
    (next cfg st).1 = .doneRes ∨ (∃ m, (next cfg st).1 = .err m) ∨
      ∃ s, (next cfg st).1 = .value ⟨cfg.x, s, cfg.writable⟩ := by
  by_cases hd : doneCond cfg st
  · exact .inl (next_done_of_doneCond hd)
  · obtain ⟨h1, h2⟩ := not_or.mp hd
    exact .inr (next_res_not_done h1 h2)

theorem doneCond_of_next_done {cfg : IterConfig} {st : CursorState}
    (h : (next cfg st).1 = .doneRes) : doneCond cfg st := by
  by_cases hd : doneCond cfg st
  · exact hd
  · obtain ⟨h1, h2⟩ := not_or.mp hd
    rcases next_res_not_done h1 h2 with ⟨m, hm⟩ | ⟨s, hv⟩
    · rw [h] at hm
      exact absurd hm (by simp)
    · rw [h] at hv
      exact absurd hv (by simp)

theorem doneCond_step {cfg : IterConfig} {st : CursorState} {c : Call}
    (h : doneCond cfg st) : doneCond cfg (stepCall cfg st c).2 := by
  cases c with
  | ret => exact Or.inl rfl
  | next =>
    have hshape := next_state_shape cfg st
    unfold doneCond at h ⊢
    rw [show (stepCall cfg st .next).2 = (next cfg st).2 from rfl, hshape.1, hshape.2]
    rcases h with h | h
    · exact .inl h
    · exact .inr (by omega)

theorem doneCond_run {cfg : IterConfig} : ∀ (cs : List Call) (st : CursorState),
    doneCond cfg st → doneCond cfg (run cfg st cs).2
  | [], _, h => h
  | c :: cs, st, h => by
    simp only [run]
    exact doneCond_run cs _ (doneCond_step h)

theorem doneCond_after {cfg : IterConfig} {st : CursorState} {c : Call}
    (h : (stepCall cfg st c).1 = .doneRes) : doneCond cfg (stepCall cfg st c).2 := by
  cases c with
  | ret => exact Or.inl rfl
  | next => exact doneCond_step (c := .next) (doneCond_of_next_done h)

theorem run_value_writable {cfg : IterConfig} :
    ∀ (cs : List Call) (st : CursorState), ∀ r ∈ (run cfg st cs).1, ∀ v, r = .value v →
      v.writable = cfg.writable
  | [], _ => by simp [run]
  | c :: cs, st => by
    intro r hr v hv
    have hmem : r = (stepCall cfg st c).1 ∨ r ∈ (run cfg (stepCall cfg st c).2 cs).1 := by
      simp only [run] at hr
      exact List.mem_cons.mp hr
    rcases hmem with h1 | h1
    · subst hv
      cases c with
      | ret => exact absurd h1.symm (by simp [stepCall, endIter])
      | next =>
        rcases next_res_cases cfg st with hd | ⟨m, hm⟩ | ⟨s, hs⟩
        · rw [show (stepCall cfg st .next).1 = (next cfg st).1 from rfl, hd] at h1
          exact absurd h1 (by simp)
        · rw [show (stepCall cfg st .next).1 = (next cfg st).1 from rfl, hm] at h1
          exact absurd h1 (by simp)
        · rw [show (stepCall cfg st .next).1 = (next cfg st).1 from rfl, hs] at h1
          rw [CallRes.value.inj h1]
    · exact run_value_writable cs _ r h1 v hv

/-! A successful construction from semantic validity of the inputs. -/

theorem nditer_ok_of_valid (x : Ndarray) (dims : List Int) (o : OptionsArg) (w : Bool)
    (nd : List Nat)
    (hne : dims ≠ [])
    (hopt : processOptions x o = .ok w)
    (hlen : dims.length < x.shape.length)
    (hnorm : normalizeDims x.shape.length dims = .ok nd)
    (hchain : nd.Chain' (· < ·)) :
    ∃ cfg st0, nditerStacks x dims o = .ok (cfg, st0) ∧
      cfg.x = x ∧ cfg.dims = nd ∧ cfg.writable = w := by
  have hcb : ∀ d ∈ nd, d < x.shape.length := (normalizeDims_ok dims nd hnorm).2
  have hpair : nd.Pairwise (· < ·) := by
    haveI : IsTrans Nat (· < ·) := ⟨fun _ _ _ => Nat.lt_trans⟩
    exact List.chain'_iff_pairwise.mp hchain
  have hsub := sorted_lt_sublist_range hpair hcb
  have hindf : freeIndices x.shape.length nd
      = (List.range x.shape.length).filter fun i => !(nd.contains i) := by
    rw [freeIndices, complementLoop_eq_filter _ _ (List.nodup_range _) hsub]
  have hindmem : ∀ j ∈ freeIndices x.shape.length nd, j < x.shape.length ∧ j ∉ nd := by
    intro j hj
    rw [hindf] at hj
    obtain ⟨hj1, hj2⟩ := List.mem_filter.mp hj
    refine ⟨List.mem_range.mp hj1, ?_⟩
    simp [contains_eq] at hj2
    exact hj2
  obtain ⟨hle, hnune⟩ := (chain'_lt_iff_le_ne nd).mp hchain
  have h1 := takeArr_eq_map x.shape 0 (freeIndices x.shape.length nd)
    fun j hj => (hindmem j hj).1
  have hdb : ∀ d ∈ nd, d < ((zerosArr x.shape.length).map some).length := by
    intro d hd
    simpa [zerosArr] using hcb d hd
  have h2 := takeVals_eq_replicate (setNulls ((zerosArr x.shape.length).map some) nd)
    (freeIndices x.shape.length nd) ?_
  · refine ⟨⟨x, nd, w, nd.foldl (fun n d => n / x.shape.getD d 0) (numel x.shape),
        freeIndices x.shape.length nd,
        (freeIndices x.shape.length nd).map fun j => x.shape.getD j 0⟩,
      ⟨decide (numel x.shape = 0), -1,
        setNulls ((zerosArr x.shape.length).map some) nd,
        List.replicate (freeIndices x.shape.length nd).length 0⟩, ?_, rfl, rfl, rfl⟩
    unfold nditerStacks
    rw [if_neg (by simp [isIntegerArray, hne]), hopt]
    dsimp only
    rw [if_neg (by omega), hnorm]
    dsimp only
    rw [(checkSorted_ok_iff nd).mpr hle]
    dsimp only
    rw [(checkUnique_ok_iff nd).mpr hnune]
    dsimp only
    rw [h1, h2]
  · intro j hj
    obtain ⟨hj1, hj2⟩ := hindmem j hj
    rw [setNulls_getElem? _ _ hdb j, if_neg hj2]
    simp [zerosArr, hj1]

/-! The claims. -/

/-- C1: from a successful construction, the k-th next call (counting from
zero over a pure sequence of next calls) returns a view exactly when k is
below the product of the extents of the free dimensions of the normalized
configuration, the product being replaced by zero whenever the array has no
elements (also when a stacked dimension has extent zero); hence exactly
that many next calls return an object with a value before the first done
result. -/
theorem C1_exhaustion_count {x : Ndarray} {dims : List Int} {o : OptionsArg}
    {cfg : IterConfig} {st0 : CursorState}
    (h : nditerStacks x dims o = .ok (cfg, st0)) (k : Nat) :
    (∃ v, nthNextRes cfg st0 k = .value v) ↔ k < totalSteps x.shape cfg.dims := by
  have hs := nditer_ok h
  by_cases hz : numel x.shape = 0
  · have hT : totalSteps x.shape cfg.dims = 0 := by rw [totalSteps, if_pos hz]
    have hflg : st0.FLG = true := by rw [hs.hFLG]; simp [hz]
    have hk := stateAfterNexts_flg cfg hflg k
    unfold nthNextRes
    rw [next_done_eq _ _ (Or.inl hk), hT]
    simp
  · have hc := hs.cfgOk
    have hp := hs.cfgPos hz
    have hT : totalSteps x.shape cfg.dims = cfg.N := by
      rw [totalSteps, if_neg hz, hs.hfree, hp.NEq]
    have hflg : st0.FLG = false := by rw [hs.hFLG]; simp [hz]
    have hbuf0 : st0.ibuf = rowMajorCoord cfg.sh 0 := by
      rw [hs.ibuf0, rowMajorCoord_zero, hc.sh_length]
    have htraj := stateAfterNexts_eq hc hp hflg hs.hi hbuf0 hs.idx0 k
    rw [hT]
    unfold nthNextRes
    rw [htraj]
    by_cases hk : k < cfg.N
    · have hval := next_value_eq cfg
        ⟨false, (k : Int) - 1,
          embedIdx cfg.x.shape.length cfg.dims cfg.indices
            (rowMajorCoord cfg.sh (min k cfg.N)),
          rowMajorCoord cfg.sh (min k cfg.N)⟩ hc hp
        ⟨rfl, rowMajorCoord_lt cfg.sh hp.shPos (min k cfg.N)⟩
        (by simp) (by dsimp only; omega)
      rw [hval]
      exact ⟨fun _ => hk, fun _ => ⟨_, rfl⟩⟩
    · have hnd := next_done_eq cfg
        ⟨false, (k : Int) - 1,
          embedIdx cfg.x.shape.length cfg.dims cfg.indices
            (rowMajorCoord cfg.sh (min k cfg.N)),
          rowMajorCoord cfg.sh (min k cfg.N)⟩ (Or.inr (by dsimp only; omega))
      rw [hnd]
      constructor
      · rintro ⟨v, hv⟩
        exact absurd hv (by simp)
      · intro hcon
        omega

theorem C1_witness :
    (∃ v, nthNextRes ⟨⟨[2, 2, 2], false⟩, [1, 2], false, 2, [0], [2]⟩
        ⟨false, -1, [some 0, none, none], [0]⟩ 1 = .value v) ↔
      1 < totalSteps [2, 2, 2] [1, 2] :=
  @C1_exhaustion_count ⟨[2, 2, 2], false⟩ [1, 2] .absent _ _ rfl 1

/-- C2: every view produced on the advance of rank k is a view over the
original array carrying the configured writable flag, whose slice-argument
list has one entry per dimension of the array: a full range (null) at every
stacked dimension, and at every free dimension the entry of the row-major
coordinate of rank k over the free shape belonging to that dimension's
position in the free-dimension list; rank 0 is the all-zeros coordinate and
the last free dimension varies fastest, so successive advances enumerate
the free coordinates in row-major order. -/
theorem C2_slice_spec {x : Ndarray} {dims : List Int} {o : OptionsArg}
    {cfg : IterConfig} {st0 : CursorState}
    (h : nditerStacks x dims o = .ok (cfg, st0)) (k : Nat)
    (hk : k < totalSteps x.shape cfg.dims) :
    nthNextRes cfg st0 k = .value ⟨x, sliceSpecAt cfg k, cfg.writable⟩ := by
  have hs := nditer_ok h
  by_cases hz : numel x.shape = 0
  · rw [totalSteps, if_pos hz] at hk
    omega
  · have hc := hs.cfgOk
    have hp := hs.cfgPos hz
    have hkN : k < cfg.N := by
      rw [totalSteps, if_neg hz, hs.hfree, ← hp.NEq] at hk
      exact hk
    have hflg : st0.FLG = false := by rw [hs.hFLG]; simp [hz]
    have hbuf0 : st0.ibuf = rowMajorCoord cfg.sh 0 := by
      rw [hs.ibuf0, rowMajorCoord_zero, hc.sh_length]
    have htraj := stateAfterNexts_eq hc hp hflg hs.hi hbuf0 hs.idx0 k
    unfold nthNextRes
    rw [htraj]
    have hval := next_value_eq cfg
      ⟨false, (k : Int) - 1,
        embedIdx cfg.x.shape.length cfg.dims cfg.indices
          (rowMajorCoord cfg.sh (min k cfg.N)),
        rowMajorCoord cfg.sh (min k cfg.N)⟩ hc hp
      ⟨rfl, rowMajorCoord_lt cfg.sh hp.shPos (min k cfg.N)⟩
      (by simp) (by dsimp only; omega)
    rw [hval]
    have hm : min k cfg.N = k := by omega
    unfold sliceSpecAt
    dsimp only
    rw [hm, hs.hx]

theorem C2_witness :
    nthNextRes ⟨⟨[2, 2, 2], false⟩, [1, 2], false, 2, [0], [2]⟩
        ⟨false, -1, [some 0, none, none], [0]⟩ 0 =
      .value ⟨⟨[2, 2, 2], false⟩,
        sliceSpecAt ⟨⟨[2, 2, 2], false⟩, [1, 2], false, 2, [0], [2]⟩ 0, false⟩ :=
  @C2_slice_spec ⟨[2, 2, 2], false⟩ [1, 2] .absent _ _ rfl 0 (by decide)

/-- C6: over every sequence of next and return calls on a constructed
iterator, the number of views produced stays between 0 and the total step
count; in particular it never exceeds the total step count however many
times next is called after exhaustion. -/
theorem C6_step_bound {x : Ndarray} {dims : List Int} {o : OptionsArg}
    {cfg : IterConfig} {st0 : CursorState}
    (h : nditerStacks x dims o = .ok (cfg, st0)) (cs : List Call) :
    countViews (run cfg st0 cs).1 ≤ totalSteps x.shape cfg.dims := by
  have hs := nditer_ok h
  calc countViews (run cfg st0 cs).1 ≤ phi cfg st0 := countViews_le_phi cfg cs st0
  _ = totalSteps x.shape cfg.dims := hs.phi_init

theorem C6_witness :
    countViews (run ⟨⟨[2, 2, 2], false⟩, [1, 2], false, 2, [0], [2]⟩
        ⟨false, -1, [some 0, none, none], [0]⟩
        [.next, .next, .next, .next, .next]).1 ≤ totalSteps [2, 2, 2] [1, 2] :=
  @C6_step_bound ⟨[2, 2, 2], false⟩ [1, 2] .absent _ _ rfl
    [.next, .next, .next, .next, .next]

/-- C7: termination is idempotent and the done state is monotonic: a return
call never fails and always reports done, and once any call (next or
return, from any reachable state, whether through exhaustion, an empty
array, or early termination) has reported done, every next call made any
number of calls later also reports done. -/
theorem C7_done_monotone {x : Ndarray} {dims : List Int} {o : OptionsArg}
    {cfg : IterConfig} {st0 : CursorState}
    (h : nditerStacks x dims o = .ok (cfg, st0)) :
    (∀ cs : List Call, (stepCall cfg (run cfg st0 cs).2 .ret).1 = .doneRes) ∧
    ∀ (cs₁ : List Call) (c : Call) (cs₂ : List Call),
      (stepCall cfg (run cfg st0 cs₁).2 c).1 = .doneRes →
      (next cfg (run cfg (stepCall cfg (run cfg st0 cs₁).2 c).2 cs₂).2).1 = .doneRes := by
  refine ⟨fun _ => rfl, ?_⟩
  intro cs₁ c cs₂ hd
  exact next_done_of_doneCond (doneCond_run cs₂ _ (doneCond_after hd))

theorem C7_witness :
    ((stepCall ⟨⟨[2, 2, 2], false⟩, [1, 2], false, 2, [0], [2]⟩
        (run ⟨⟨[2, 2, 2], false⟩, [1, 2], false, 2, [0], [2]⟩
          ⟨false, -1, [some 0, none, none], [0]⟩ []).2 .ret).1 = .doneRes) ∧
    (next ⟨⟨[2, 2, 2], false⟩, [1, 2], false, 2, [0], [2]⟩
        (run ⟨⟨[2, 2, 2], false⟩, [1, 2], false, 2, [0], [2]⟩
          (stepCall ⟨⟨[2, 2, 2], false⟩, [1, 2], false, 2, [0], [2]⟩
            (run ⟨⟨[2, 2, 2], false⟩, [1, 2], false, 2, [0], [2]⟩
              ⟨false, -1, [some 0, none, none], [0]⟩ []).2 .ret).2 [.next]).2).1
      = .doneRes :=
  ⟨(@C7_done_monotone ⟨[2, 2, 2], false⟩ [1, 2] .absent _ _ rfl).1 [],
   (@C7_done_monotone ⟨[2, 2, 2], false⟩ [1, 2] .absent _ _ rfl).2
     [] .ret [.next] rfl⟩

/-- C9: no call on a constructed iterator can fail: across every sequence
of next and return calls, no result is a collaborator error — the odometer
keeps every index in bounds, so the error branches of the index helpers and
of the slice construction are unreachable. -/
theorem C9_no_failure {x : Ndarray} {dims : List Int} {o : OptionsArg}
    {cfg : IterConfig} {st0 : CursorState}
    (h : nditerStacks x dims o = .ok (cfg, st0)) (cs : List Call) :
    ∀ r ∈ (run cfg st0 cs).1, ∀ m, r ≠ .err m := by
  have hs := nditer_ok h
  by_cases hz : numel x.shape = 0
  · have hflg : st0.FLG = true := by rw [hs.hFLG]; simp [hz]
    intro r hr m
    rw [(run_flg cfg cs st0 hflg).2 r hr]
    simp
  · exact (run_ok hs.cfgOk (hs.cfgPos hz) cs st0 (hs.inv hz)).2

theorem C9_witness :
    CallRes.value ⟨⟨[2, 2, 2], false⟩, [some 0, none, none], false⟩ ≠ .err "boom" :=
  @C9_no_failure ⟨[2, 2, 2], false⟩ [1, 2] .absent _ _ rfl
    [.next] _ (by decide) "boom"

/-- C3: at a concrete writable array, dims [1, 2] and readonly set to
false, the original construction is writable but the iterator produced by
the factory closure is read-only: the factory passes the internal opts
object, whose only key is writable, and the constructor looks only for a
readonly key, so the writable setting is silently dropped.  Array, the
normalized dimension list, and the fresh cursor state do carry over. -/
theorem C3_factory_drops_writable :
    nditerStacks ⟨[2, 2, 2], false⟩ [1, 2] (.plainObj (.boolVal false) none)
      = .ok (⟨⟨[2, 2, 2], false⟩, [1, 2], true, 2, [0], [2]⟩,
             ⟨false, -1, [some 0, none, none], [0]⟩) ∧
    factory ⟨⟨[2, 2, 2], false⟩, [1, 2], true, 2, [0], [2]⟩
      = .ok (⟨⟨[2, 2, 2], false⟩, [1, 2], false, 2, [0], [2]⟩,
             ⟨false, -1, [some 0, none, none], [0]⟩) ∧
    (⟨⟨[2, 2, 2], false⟩, [1, 2], true, 2, [0], [2]⟩ : IterConfig).writable = true ∧
    (⟨⟨[2, 2, 2], false⟩, [1, 2], false, 2, [0], [2]⟩ : IterConfig).writable = false :=
  ⟨rfl, rfl, rfl, rfl⟩

/-- C4 counterexample: with an out-of-range dimension index and an options
argument that is not a plain object, construction fails with the options
error — not with the dimension error, which the same dimension list does
produce once the options argument is valid. -/
theorem C4_counterexample :
    nditerStacks ⟨[2, 2, 2], false⟩ [5] .notPlainObject = .error .optionsNotObject ∧
    nditerStacks ⟨[2, 2, 2], false⟩ [5] .absent = .error .indexOutOfRange ∧
    ErrKind.optionsNotObject ≠ ErrKind.indexOutOfRange :=
  ⟨rfl, rfl, by decide⟩

/-- C4 amended: the options-argument checks precede the dimension-content
checks: for every ndarray and every nonempty integer dimension list —
including lists with out-of-range, unsorted or duplicate entries — an
options argument that is not a plain object fails with the
options-not-object error, and a plain object with a non-boolean readonly
entry fails with the invalid-option error. -/
theorem C4_options_before_dims (x : Ndarray) (dims : List Int) (hne : dims ≠ []) :
    nditerStacks x dims .notPlainObject = .error .optionsNotObject ∧
    ∀ wr, nditerStacks x dims (.plainObj .nonBool wr) = .error .invalidReadonlyOption := by
  constructor
  · unfold nditerStacks
    rw [if_neg (by simp [isIntegerArray, hne])]
    rfl
  · intro wr
    unfold nditerStacks
    rw [if_neg (by simp [isIntegerArray, hne])]
    rfl

theorem C4_witness :
    nditerStacks ⟨[2, 2, 2], false⟩ [5] .notPlainObject = .error .optionsNotObject ∧
    nditerStacks ⟨[2, 2, 2], false⟩ [5] (.plainObj .nonBool none)
      = .error .invalidReadonlyOption :=
  ⟨(C4_options_before_dims ⟨[2, 2, 2], false⟩ [5] (by decide)).1,
   (C4_options_before_dims ⟨[2, 2, 2], false⟩ [5] (by decide)).2 none⟩

/-- C5 counterexample: the dimension list [1, 1] on a three-dimensional
array fails with the uniqueness error, not with the ordering error the
claim names. -/
theorem C5_counterexample :
    nditerStacks ⟨[2, 2, 2], false⟩ [1, 1] .absent = .error .notUnique ∧
    ErrKind.notUnique ≠ ErrKind.notSortedAscending :=
  ⟨rfl, by decide⟩

/-- C5 amended: once construction reaches the ordering stage (nonempty
integer dims, valid options, enough dimensions, all indices normalizable),
the ordering error is raised exactly when some adjacent normalized pair
strictly decreases; a list that passes that check but has an equal adjacent
pair raises the subsequent uniqueness error instead. -/
theorem C5_ordering_vs_uniqueness (x : Ndarray) (dims : List Int) (o : OptionsArg)
    (w : Bool) (nd : List Nat)
    (hne : dims ≠ []) (hopt : processOptions x o = .ok w)
    (hlen : dims.length < x.shape.length)
    (hnorm : normalizeDims x.shape.length dims = .ok nd) :
    (¬ nd.Chain' (· ≤ ·) → nditerStacks x dims o = .error .notSortedAscending) ∧
    (nd.Chain' (· ≤ ·) → ¬ nd.Chain' (· ≠ ·) →
      nditerStacks x dims o = .error .notUnique) := by
  constructor
  · intro hns
    unfold nditerStacks
    rw [if_neg (by simp [isIntegerArray, hne]), hopt]
    dsimp only
    rw [if_neg (by omega), hnorm]
    dsimp only
    have hcs : checkSorted nd = .error .notSortedAscending := by
      rcases checkSorted_eq_or nd with hok | herr
      · exact absurd ((checkSorted_ok_iff nd).mp hok) hns
      · exact herr
    rw [hcs]
  · intro hle hnu
    unfold nditerStacks
    rw [if_neg (by simp [isIntegerArray, hne]), hopt]
    dsimp only
    rw [if_neg (by omega), hnorm]
    dsimp only
    rw [(checkSorted_ok_iff nd).mpr hle]
    dsimp only
    have hcu : checkUnique nd = .error .notUnique := by
      rcases checkUnique_eq_or nd with hok | herr
      · exact absurd ((checkUnique_ok_iff nd).mp hok) hnu
      · exact herr
    rw [hcu]

theorem C5_witness :
    nditerStacks ⟨[2, 2, 2], false⟩ [2, 1] .absent = .error .notSortedAscending ∧
    nditerStacks ⟨[2, 2, 2], false⟩ [1, 1] .absent = .error .notUnique :=
  ⟨(C5_ordering_vs_uniqueness ⟨[2, 2, 2], false⟩ [2, 1] .absent false [2, 1]
      (by decide) rfl (by decide) rfl).1
      (by simp [List.chain'_cons]),
   (C5_ordering_vs_uniqueness ⟨[2, 2, 2], false⟩ [1, 1] .absent false [1, 1]
      (by decide) rfl (by decide) rfl).2
      (by simp [List.chain'_cons]) (by simp [List.chain'_cons])⟩

/-- C8: explicitly requesting readonly false against a read-only source
array fails with the permission error (for any dims that pass the
integer-array check, since options are validated first); the same
construction without options succeeds — given dims that pass the remaining
checks — with the writable flag off, and every view it ever produces is
read-only. -/
theorem C8_write_guard (x : Ndarray) (dims : List Int) (nd : List Nat)
    (hro : x.readOnlyFlag = true) (hne : dims ≠ [])
    (hlen : dims.length < x.shape.length)
    (hnorm : normalizeDims x.shape.length dims = .ok nd)
    (hchain : nd.Chain' (· < ·)) :
    (∀ wr, nditerStacks x dims (.plainObj (.boolVal false) wr)
      = .error .cannotWriteReadOnly) ∧
    ∃ cfg st0, nditerStacks x dims .absent = .ok (cfg, st0) ∧ cfg.writable = false ∧
      ∀ (cs : List Call), ∀ r ∈ (run cfg st0 cs).1, ∀ v, r = .value v →
        v.writable = false := by
  constructor
  · intro wr
    unfold nditerStacks
    rw [if_neg (by simp [isIntegerArray, hne])]
    have hopt : processOptions x (.plainObj (.boolVal false) wr)
        = .error .cannotWriteReadOnly := by
      unfold processOptions
      dsimp only
      rw [if_pos (by rw [hro]; rfl)]
    rw [hopt]
  · obtain ⟨cfg, st0, hok, hx, hd, hw⟩ :=
      nditer_ok_of_valid x dims .absent false nd hne rfl hlen hnorm hchain
    refine ⟨cfg, st0, hok, hw, ?_⟩
    intro cs r hr v hv
    rw [run_value_writable cs st0 r hr v hv, hw]

theorem C8_witness :
    nditerStacks ⟨[2, 2, 2], true⟩ [1, 2] (.plainObj (.boolVal false) none)
      = .error .cannotWriteReadOnly :=
  (C8_write_guard ⟨[2, 2, 2], true⟩ [1, 2] [1, 2] rfl (by decide) (by decide) rfl
      (by simp [List.chain'_cons])).1 none

/-- C10 counterexample: construction with an empty dims list on a plain
two-dimensional array does not succeed; it fails with the
second-argument-not-an-integer-array error. -/
theorem C10_counterexample :
    nditerStacks ⟨[2, 2], false⟩ [] .absent = .error .secondArgNotIntegerArray ∧
    (nditerStacks ⟨[2, 2], false⟩ [] .absent).toOption = none :=
  ⟨rfl, rfl⟩

/-- C10 amended: an empty stack-dimension list is rejected at the public
interface for every ndarray and every options argument: the external
integer-array predicate returns false for empty collections, so
construction always fails with the invalid-second-argument error and no
iterator is produced. -/
theorem C10_empty_dims_rejected (x : Ndarray) (o : OptionsArg) :
    nditerStacks x [] o = .error .secondArgNotIntegerArray := rfl

end NdIterStacks
